import Mathlib

/-!
Verification of the self-correction writing core of
`langgraph-multi-agent-patterns`: the Strategy-3 Reflexion controller
(`strategy3_reflexion/graph.py`, `agents.py`, `state.py`) and the persistent
reflection memory store (`vector_memory.py`).

The embedding is shallow: ChromaDB collections are finite lists of records,
the embedding and distance capabilities are parameters (the repository treats
them as environment-supplied), model calls are oracles supplying the raw
responses, and floats are rationals (all float operations used by the code are
comparisons, `min`/`max` and exact additions, which are exact on rationals).
-/

namespace S3

/-! ## Python metadata values

ChromaDB metadata accepts only `str`, `int`, `float` and `bool` values;
`other` stands for every Python value of any further type (lists, dicts,
`None`, ...), which `add_reflection` filters out. -/

inductive PyVal where
  | str (s : String)
  | int (n : Int)
  | float (q : ℚ)
  | bool (b : Bool)
  | other
deriving DecidableEq, Repr

/-- `isinstance(v, (str, int, float, bool))` from `add_reflection`. -/
def PyVal.isPrimitive : PyVal → Bool
  | .other => false
  | _ => true

/-- A Python dict used as ChromaDB metadata: association list, first binding
of a key wins (the operations below never create duplicate keys). -/
abbrev Metadata := List (String × PyVal)

/-- `meta.get(k)` / `meta[k]`. -/
def metaGet (m : Metadata) (k : String) : Option PyVal :=
  (m.find? (fun kv => kv.1 == k)).map (fun kv => kv.2)

/-- `{**meta, k: v}`: replace the binding of `k` (bindings of other keys are
kept in order; the updated binding goes to the end). -/
def metaSet (m : Metadata) (k : String) (v : PyVal) : Metadata :=
  (m.filter (fun kv => kv.1 != k)) ++ [(k, v)]

/-- Python `float(v)` on a metadata value, for the values on which it is
defined without parsing: numbers and bools. A `str` would have to be parsed
(and may raise); no operation of `vector_memory.py` ever stores a non-numeric
`utility_score`, so that branch is unreachable in well-formed stores. -/
def pyFloatNum : PyVal → Option ℚ
  | .float q => some q
  | .int n => some (n : ℚ)
  | .bool b => some (if b then 1 else 0)
  | _ => none

/-- `float(meta.get("utility_score", 1.0))` as used by `boost_utility` and
`_decay_and_prune`. -/
def getUtility (m : Metadata) : ℚ :=
  match metaGet m "utility_score" with
  | none => 1
  | some v => (pyFloatNum v).getD 1

/-- All metadata values are ChromaDB-primitive. -/
def metaSafe (m : Metadata) : Bool :=
  m.all (fun kv => kv.2.isPrimitive)

/-! ## ChromaDB collection model

A collection is a list of records plus a fresh-id counter standing for the
uuid generator. The embedding space `E` and the (cosine) distance are
parameters; ChromaDB's cosine distance is `1 - similarity`. -/

structure MemRec (E : Type) where
  id : Nat
  document : String
  embedding : E
  meta : Metadata
deriving DecidableEq, Repr

structure Collection (E : Type) where
  recs : List (MemRec E)
  nextId : Nat
deriving DecidableEq, Repr

/-- Every stored id is below the fresh-id counter (true of every collection
built by the operations below from an empty one). -/
def idsFresh {E : Type} (c : Collection E) : Bool :=
  c.recs.all (fun r => r.id < c.nextId)

/-- A ChromaDB `where` clause as built by `_build_where` /
`add_reflection_with_dedup`: a conjunction of equality tests on metadata keys
(`{"$and": [...]}`, or the single item, or no filter when empty — the three
syntactic forms have this one semantics). -/
def matchesWhere (w : List (String × PyVal)) (m : Metadata) : Bool :=
  w.all (fun kv => metaGet m kv.1 == some kv.2)

/-- `collection.get(where=...)`: the records matching the filter. -/
def getWhere {E : Type} (w : List (String × PyVal)) (c : Collection E) :
    List (MemRec E) :=
  c.recs.filter (fun r => matchesWhere w r.meta)

/-- `collection.query(query_embeddings=[e], n_results=1, where=w)`: the single
record matching `w` nearest to `e` (none if no record matches). -/
def queryNearest {E : Type} (dist : E → E → ℚ) (e : E)
    (w : List (String × PyVal)) (c : Collection E) : Option (MemRec E) :=
  (getWhere w c).argmin (fun r => dist e r.embedding)

/-- `add_reflection(reflection, metadata)`: embeds the text, drops every
non-primitive metadata value, appends one record with a fresh id, returns the
id. -/
def add_reflection {E : Type} (embed : String → E)
    (reflection : String) (metadata : Metadata) (c : Collection E) :
    Nat × Collection E :=
  let doc_id := c.nextId
  let embedding := embed reflection
  let safe_metadata := metadata.filter (fun kv => kv.2.isPrimitive)
  (doc_id,
   { recs := c.recs ++ [⟨doc_id, reflection, embedding, safe_metadata⟩],
     nextId := c.nextId + 1 })

/-- The scope filter `add_reflection_with_dedup` builds from the metadata:
the `task_type` and `criteria_hash` entries that are present. -/
def dedupFilterItems (metadata : Metadata) : List (String × PyVal) :=
  (["task_type", "criteria_hash"]).filterMap
    (fun k => (metaGet metadata k).map (fun v => (k, v)))

/-- `add_reflection_with_dedup(reflection, metadata, dedup_threshold)`:
queries the single nearest record in the `(task_type, criteria_hash)` scope;
if its similarity (`1 - distance`) is at least the threshold, skips the write
and returns `none`; otherwise writes with `utility_score` set to `1.0` and
returns the new id. -/
def add_reflection_with_dedup {E : Type} (embed : String → E)
    (dist : E → E → ℚ) (reflection : String) (metadata : Metadata)
    (dedup_threshold : ℚ) (c : Collection E) : Option Nat × Collection E :=
  let embedding := embed reflection
  let filter_items := dedupFilterItems metadata
  match queryNearest dist embedding filter_items c with
  | some r =>
      if 1 - dist embedding r.embedding ≥ dedup_threshold then
        (none, c)
      else
        let md := metaSet metadata "utility_score" (.float 1)
        let out := add_reflection embed reflection md c
        (some out.1, out.2)
  | none =>
      let md := metaSet metadata "utility_score" (.float 1)
      let out := add_reflection embed reflection md c
      (some out.1, out.2)

/-- `boost_utility(doc_ids, boost)`: each named record's `utility_score` is
raised by `boost`, capped at `2.0`. -/
def boost_utility {E : Type} (doc_ids : List Nat) (boost : ℚ)
    (c : Collection E) : Collection E :=
  if doc_ids.isEmpty then c
  else
    { c with
      recs := c.recs.map (fun r =>
        if r.id ∈ doc_ids then
          { r with
            meta := metaSet r.meta "utility_score"
              (.float (min (getUtility r.meta + boost) 2)) }
        else r) }

/-- The per-record effect of `_decay_and_prune`: a record in the filtered
scope has its `utility_score` reduced by `decay_rate` and is deleted
(`none`) when the reduced score falls below `prune_threshold`; records
outside the scope are untouched. -/
def decayStep (mf : Metadata) (decay_rate prune_threshold : ℚ)
    {E : Type} (r : MemRec E) : Option (MemRec E) :=
  if matchesWhere mf r.meta then
    let new_score := getUtility r.meta - decay_rate
    if new_score < prune_threshold then none
    else some { r with meta := metaSet r.meta "utility_score" (.float new_score) }
  else some r

/-- `_decay_and_prune(metadata_filter, decay_rate, prune_threshold)`:
applies `decayStep` to every record; returns the new collection and the
number of pruned records. -/
def decay_and_prune {E : Type} (mf : Metadata)
    (decay_rate prune_threshold : ℚ) (c : Collection E) :
    Collection E × Nat :=
  let kept := c.recs.filterMap (decayStep mf decay_rate prune_threshold)
  ({ c with recs := kept }, c.recs.length - kept.length)

/-- Python's whitespace test, character-level (ASCII whitespace). -/
def pyIsSpace (ch : Char) : Bool :=
  ch = ' ' || ch = '\t' || ch = '\n' || ch = '\r' ||
  ch = '\x0b' || ch = '\x0c'

/-- Python `s.strip()`: remove leading and trailing whitespace. Defined on
the character list so that it evaluates by reduction. -/
def pyStrip (s : String) : String :=
  ⟨((s.data.dropWhile pyIsSpace).reverse.dropWhile pyIsSpace).reverse⟩

/-- Python `s.splitlines()` for newline-separated text. -/
def pySplitLines (s : String) : List String :=
  (List.splitOn '\n' s.data).map (fun l => ⟨l⟩)

/-- Python `stripped.partition(".")`'s third component: everything after the
first `"."`, empty when there is no dot. -/
def afterFirstDot (s : String) : String :=
  match List.splitOn '.' s.data with
  | [] => ""
  | [_] => ""
  | _ :: rest => ⟨List.intercalate ['.'] rest⟩

/-- One step of `_parse_principles`' line loop: keep a line starting with
`-`/`*` (of length above 2, stripped of the leading markers) or a line
starting with a digit whose first four characters contain a dot (the part
after the first dot, when nonempty). -/
def parsePrincipleLine (acc : List String) (line : String) : List String :=
  let stripped := pyStrip line
  if stripped.data = [] then acc
  else if (match stripped.data.head? with
           | some ch => ch = '-' || ch = '*'
           | none => false)
      && stripped.data.length > 2 then
    acc ++ [pyStrip ⟨stripped.data.dropWhile
      (fun ch => ch = '-' || ch = '*' || ch = ' ')⟩]
  else if (match stripped.data.head? with
           | some ch => ch.isDigit
           | none => false)
      && (stripped.data.take 4).contains '.' then
    let rest := afterFirstDot stripped
    if (pyStrip rest).data = [] then acc else acc ++ [pyStrip rest]
  else acc

/-- `_parse_principles(raw)`: extracts the lines starting with `-`/`*` or
`N.`, keeping at most the first three. -/
def parse_principles (raw : String) : List String :=
  ((pySplitLines (pyStrip raw)).foldl parsePrincipleLine []).take 3

/-- The write loop of `_consolidate`: writes the principles one at a time via
`add_reflection`. Writes are fallible (the embedding or store call may raise);
`writeOk i` says whether the `i`-th write succeeds. On the first failure the
loop stops with the ids written so far and the collection at that point
(Python's `except` block then rolls these back). -/
def consolidateWriteLoop {E : Type} (embed : String → E) (writeOk : Nat → Bool)
    (base_meta : Metadata) (ps : List String) (i : Nat) (new_ids : List Nat)
    (c : Collection E) : Except (List Nat × Collection E) (List Nat × Collection E) :=
  match ps with
  | [] => .ok (new_ids, c)
  | p :: rest =>
      if writeOk i then
        let out := add_reflection embed p base_meta c
        consolidateWriteLoop embed writeOk base_meta rest (i + 1)
          (new_ids ++ [out.1]) out.2
      else .error (new_ids, c)

/-- `_consolidate(metadata_filter, max_count)`: when the scope holds more than
`max_count` records, asks the model to summarize them (the response is the
oracle `raw`), parses at most three principles, writes them first (rolling the
already-written ones back if a write fails) and only then deletes the
originals. Returns whether consolidation ran to completion. -/
def consolidate {E : Type} (embed : String → E) (raw : String)
    (writeOk : Nat → Bool) (mf : Metadata) (max_count : Nat)
    (c : Collection E) : Bool × Collection E :=
  let all_docs := getWhere mf c
  if all_docs.length ≤ max_count then (false, c)
  else
    let principles := parse_principles raw
    if principles = [] then (false, c)
    else
      let base0 := mf.filter (fun kv => kv.2.isPrimitive)
      let base1 := metaSet base0 "utility_score" (.float 1)
      let base_meta := metaSet base1 "consolidated" (.bool true)
      match consolidateWriteLoop embed writeOk base_meta principles 0 [] c with
      | .error (new_ids, c1) =>
          (false, { c1 with recs := c1.recs.filter (fun r => r.id ∉ new_ids) })
      | .ok (_, c1) =>
          let old_ids := all_docs.map (fun r => r.id)
          (true, { c1 with recs := c1.recs.filter (fun r => r.id ∉ old_ids) })

/-- `run_maintenance(metadata_filter, decay_rate, prune_threshold,
consolidation_threshold)`: decay-and-prune, then consolidate. -/
def run_maintenance {E : Type} (embed : String → E) (raw : String)
    (writeOk : Nat → Bool) (mf : Metadata) (decay_rate prune_threshold : ℚ)
    (consolidation_threshold : Nat) (c : Collection E) : Collection E :=
  let d := decay_and_prune mf decay_rate prune_threshold c
  (consolidate embed raw writeOk mf consolidation_threshold d.1).2

/-! ## `ReflectionVectorStore.get_instance` — process-wide singleton

The class keeps `_instance` in a class attribute; `get_instance` constructs
the store at most once (double-checked under a lock; the model is the
sequential semantics, which is what the lock enforces). An instance is
identified by its construction ordinal together with the constructor
arguments it was built from. -/

structure StoreCfg where
  persist_directory : String
  collection_name : String
deriving DecidableEq, Repr

structure SingletonState where
  inst : Option (Nat × StoreCfg)
  constructed : Nat
deriving DecidableEq, Repr

/-- `ReflectionVectorStore.get_instance(persist_directory, collection_name)`:
returns the existing instance if there is one, otherwise constructs it from
the given arguments. -/
def get_instance (args : StoreCfg) (s : SingletonState) :
    (Nat × StoreCfg) × SingletonState :=
  match s.inst with
  | some i => (i, s)
  | none =>
      ((s.constructed, args),
       { inst := some (s.constructed, args), constructed := s.constructed + 1 })

/-- A sequence of `get_instance` calls in one process: the returned instances
and the final class state. -/
def getInstanceCalls : List StoreCfg → SingletonState →
    List (Nat × StoreCfg) × SingletonState
  | [], s => ([], s)
  | a :: rest, s =>
      let out := get_instance a s
      let tail := getInstanceCalls rest out.2
      (out.1 :: tail.1, tail.2)

/-! ## Checkpointing — `MemorySaver`

Modelled from the langgraph library used at `build_graph_strategy3`:
`MemorySaver` appends one checkpoint per completed transition to an
**in-process** dict keyed by thread id; nothing is written to durable
storage, so a process restart starts from an empty saver. -/

structure CheckpointSaver (St : Type) where
  entries : List (String × St)
deriving DecidableEq, Repr

/-- Record one completed transition's state under the run's thread id. -/
def putCheckpoint {St : Type} (cs : CheckpointSaver St) (thread_id : String)
    (st : St) : CheckpointSaver St :=
  { entries := cs.entries ++ [(thread_id, st)] }

/-- Resume lookup: the most recent checkpoint stored under the thread id. -/
def getLatestCheckpoint {St : Type} (cs : CheckpointSaver St)
    (thread_id : String) : Option St :=
  (cs.entries.reverse.find? (fun e => e.1 == thread_id)).map (fun e => e.2)

/-- A process restart: `MemorySaver` state lives in process memory only. -/
def processRestart {St : Type} : CheckpointSaver St → CheckpointSaver St :=
  fun _ => ⟨[]⟩

/-! ## Strategy-3 controller — `WritingState` and the node functions

`WritingState` is a total TypedDict; `revision_history` and `reflections`
carry the `operator.add` reducer (a node's partial return is appended), every
other key is overwritten by a node's return. `retrieved_memories` holds
`{"text": t}` dicts; only the texts matter, so it is modelled as the list of
texts. Each model call is an oracle argument carrying the (already
JSON-decoded, where applicable) response. -/

structure WState where
  topic : String
  criteria : String
  current_draft : String
  revision_history : List String
  reflections : List String
  iteration : Nat
  max_iterations : Nat
  score : ℚ
  score_threshold : ℚ
  critique : String
  final_output : String
  retrieved_memories : List String
  graded_memories : List String
deriving DecidableEq, Repr

/-- `list(dict.fromkeys(xs))`: exact-text dedup keeping first-seen order. -/
def firstSeen (xs : List String) : List String :=
  xs.foldl (fun acc x => if x ∈ acc then acc else acc ++ [x]) []

/-- Node `retrieve_memory`: merges the session `reflections` with the texts
retrieved from the vector store (empty on store error — the `except` block
degrades gracefully), deduplicating exact matches first-seen. The store
interaction itself (`retrieve_reflections` + `boost_utility`) is modelled by
the collection operations above. -/
def retrieve_memory_node (retrieved_texts : List String) (s : WState) :
    WState :=
  { s with retrieved_memories := firstSeen (s.reflections ++ retrieved_texts) }

/-- Node `grade_relevance`: one batched verdict list over all memories.
`verdicts = none` stands for a response that fails to decode to a JSON list;
a decoded list of the wrong length is also rejected. In both conservative
cases every memory is kept; otherwise the `"YES"` ones are kept. -/
def grade_relevance_node (verdicts : Option (List String)) (s : WState) :
    WState :=
  let memories := s.retrieved_memories
  if memories.isEmpty then { s with graded_memories := [] }
  else
    match verdicts with
    | none => { s with graded_memories := memories }
    | some vs =>
        if vs.length = memories.length then
          { s with
            graded_memories :=
              (memories.zip vs).filterMap
                (fun mv => if mv.2.trim.toUpper = "YES" then some mv.1 else none) }
        else { s with graded_memories := memories }

/-- Node `generate`: overwrites `current_draft` and appends to
`revision_history` (the `operator.add` reducer applied to `[draft]`). -/
def generate_node (draft : String) (s : WState) : WState :=
  { s with
    current_draft := draft
    revision_history := s.revision_history ++ [draft] }

/-- The evaluator response after JSON decoding and `float()` coercion:
either the decoded object (whose `score`/`critique` keys may be absent) or
`none` for a response `parse_json` cannot parse. -/
structure EvalParsed where
  score : Option ℚ
  critique : Option String
deriving DecidableEq, Repr

/-- Modelled from the spec: `parse_json` (imported from
`self_correction_writing.common`, which is not among the sources) parses the
model response into the expected structure and returns the supplied default
on parse failure. -/
def parse_json (resp : Option EvalParsed) (default : EvalParsed) :
    EvalParsed :=
  resp.getD default

/-- The default `evaluator` passes to `parse_json`. -/
def evaluatorDefault : EvalParsed :=
  ⟨some (1 / 2), some "無法解析評語"⟩

/-- Node `evaluator`: `score = max(0.0, min(1.0, float(parsed.get("score",
0.5))))`, `critique = parsed.get("critique", "")`. -/
def evaluator_node (resp : Option EvalParsed) (s : WState) : WState :=
  let parsed := parse_json resp evaluatorDefault
  { s with
    score := max 0 (min 1 (parsed.score.getD (1 / 2)))
    critique := parsed.critique.getD "" }

/-- Node `reflector`, state part: appends the derived lesson to the session
`reflections` and increments `iteration` by one. The vector-store side effect
(`add_reflection_with_dedup` then `run_maintenance`, inside `try/except`) is
modelled by the collection operations above and never alters this returned
state update. -/
def reflector_node (reflection : String) (s : WState) : WState :=
  { s with
    reflections := s.reflections ++ [reflection]
    iteration := s.iteration + 1 }

/-- Node `finalize`: copies `current_draft` into `final_output`. -/
def finalize_node (s : WState) : WState :=
  { s with final_output := s.current_draft }

/-- `_should_retry_or_finish` from `graph.py` — the conditional router after
`evaluator` (deterministic, no model call). -/
def should_retry_or_finish (s : WState) : String :=
  if s.score ≥ s.score_threshold ∨ s.iteration ≥ s.max_iterations then
    "finalize"
  else "reflector"

/-- The model responses consumed by one `retrieve_memory → grade_relevance →
generate → evaluator` pass (plus the reflection text should the pass end in
`reflector`). -/
structure PassOracle where
  retrieved : List String
  verdicts : Option (List String)
  draft : String
  evalResp : Option EvalParsed
  reflection : String

/-- One pass of the loop body: `retrieve_memory → grade_relevance →
generate → evaluator` (the edges of `build_graph_strategy3`). -/
def runPass (o : PassOracle) (s : WState) : WState :=
  evaluator_node o.evalResp
    (generate_node o.draft
      (grade_relevance_node o.verdicts
        (retrieve_memory_node o.retrieved s)))

theorem grade_relevance_node_iteration (v : Option (List String)) (s : WState) :
    (grade_relevance_node v s).iteration = s.iteration := by
  unfold grade_relevance_node
  cases v <;> dsimp only <;> (repeat' split) <;> rfl

theorem runPass_iteration (o : PassOracle) (s : WState) :
    (runPass o s).iteration = s.iteration := by
  unfold runPass evaluator_node generate_node
  simp only [grade_relevance_node_iteration, retrieve_memory_node]

theorem grade_relevance_node_max (v : Option (List String)) (s : WState) :
    (grade_relevance_node v s).max_iterations = s.max_iterations := by
  unfold grade_relevance_node
  cases v <;> dsimp only <;> (repeat' split) <;> rfl

theorem runPass_max (o : PassOracle) (s : WState) :
    (runPass o s).max_iterations = s.max_iterations := by
  unfold runPass evaluator_node generate_node
  simp only [grade_relevance_node_max, retrieve_memory_node]

theorem should_retry_ne_finalize {s : WState}
    (h : ¬should_retry_or_finish s = "finalize") :
    s.score < s.score_threshold ∧ s.iteration < s.max_iterations := by
  unfold should_retry_or_finish at h
  split at h
  · exact absurd rfl h
  · next hc => push_neg at hc; exact hc

/-- The compiled graph run from `retrieve_memory`, fueled: repeat the pass;
after `evaluator`, route by `_should_retry_or_finish`; on `"finalize"` run
`finalize` and stop, otherwise run `reflector` and loop back to
`retrieve_memory`. Returns the terminal state and the number of `reflector`
executions. The graph itself has no fuel; `none` marks fuel exhaustion, and
the termination theorem below shows fuel `max_iterations - iteration + 1` is
never exhausted, because every `reflector` step strictly decreases
`max_iterations - iteration`. -/
def loopFuel (orc : Nat → PassOracle) :
    Nat → WState → Nat → Option (WState × Nat)
  | 0, _, _ => none
  | fuel + 1, s, k =>
      let s1 := runPass (orc k) s
      if should_retry_or_finish s1 = "finalize" then some (finalize_node s1, 0)
      else
        match loopFuel orc fuel (reflector_node (orc k).reflection s1) (k + 1) with
        | none => none
        | some out => some (out.1, out.2 + 1)

/-- A full Strategy-3 run from an initial state: the terminal state and the
number of `reflector` executions. -/
def runStrategy3 (orc : Nat → PassOracle) (s : WState) :
    Option (WState × Nat) :=
  loopFuel orc (s.max_iterations + 1 - s.iteration) s 0

theorem finalize_node_iteration (s : WState) :
    (finalize_node s).iteration = s.iteration := rfl

theorem finalize_node_max (s : WState) :
    (finalize_node s).max_iterations = s.max_iterations := rfl

theorem reflector_node_iteration (r : String) (s : WState) :
    (reflector_node r s).iteration = s.iteration + 1 := rfl

theorem reflector_node_max (r : String) (s : WState) :
    (reflector_node r s).max_iterations = s.max_iterations := rfl

theorem loopFuel_spec (orc : Nat → PassOracle) :
    ∀ (fuel : Nat) (s : WState) (k : Nat),
      s.iteration ≤ s.max_iterations →
      s.max_iterations - s.iteration < fuel →
      ∃ out, loopFuel orc fuel s k = some out ∧
        out.1.iteration = s.iteration + out.2 ∧
        out.2 ≤ s.max_iterations - s.iteration ∧
        out.1.max_iterations = s.max_iterations ∧
        out.1.final_output = out.1.current_draft := by
  intro fuel
  induction fuel with
  | zero => intro s k _ h2; omega
  | succ n ih =>
      intro s k h1 h2
      by_cases hf : should_retry_or_finish (runPass (orc k) s) = "finalize"
      · refine ⟨(finalize_node (runPass (orc k) s), 0), ?_, ?_, ?_, ?_, ?_⟩
        · simp only [loopFuel, hf, if_pos]
        · dsimp only
          rw [finalize_node_iteration, runPass_iteration]
          omega
        · dsimp only
          omega
        · dsimp only
          rw [finalize_node_max, runPass_max]
        · dsimp only
          rfl
      · have h3 := (should_retry_ne_finalize hf).2
        rw [runPass_iteration, runPass_max] at h3
        obtain ⟨⟨o1, o2⟩, hout, hi, hc, hm, hfo⟩ :=
          ih (reflector_node (orc k).reflection (runPass (orc k) s)) (k + 1)
            (by rw [reflector_node_iteration, reflector_node_max,
                    runPass_iteration, runPass_max]
                omega)
            (by rw [reflector_node_iteration, reflector_node_max,
                    runPass_iteration, runPass_max]
                omega)
        rw [reflector_node_iteration, runPass_iteration] at hi
        rw [reflector_node_iteration, reflector_node_max,
            runPass_iteration, runPass_max] at hc
        rw [reflector_node_max, runPass_max] at hm
        dsimp only at hi hc hm hfo
        refine ⟨(o1, o2 + 1), ?_, ?_, ?_, ?_, ?_⟩
        · simp only [loopFuel, hf, if_neg, not_false_iff, hout]
        · dsimp only
          omega
        · dsimp only
          omega
        · exact hm
        · exact hfo

/-! ## Helper lemmas on metadata dictionaries -/

theorem find?_filter_ne (m : Metadata) (u k : String) (hk : k ≠ u) :
    (m.filter (fun kv => kv.1 != u)).find? (fun kv => kv.1 == k) =
      m.find? (fun kv => kv.1 == k) := by
  induction m with
  | nil => rfl
  | cons kv rest ih =>
      by_cases h1 : kv.1 = u
      · have hf : (kv.1 != u) = false := by simp [h1]
        have hb : (kv.1 == k) = false := by
          simp only [beq_eq_false_iff_ne]
          intro h2; exact hk (h2 ▸ h1)
        simp only [List.filter_cons, hf, Bool.false_eq_true, if_false,
          List.find?_cons, hb]
        exact ih
      · have hf : (kv.1 != u) = true := by simp [h1]
        simp only [List.filter_cons, hf, if_true, List.find?_cons]
        cases hb : (kv.1 == k) with
        | true => rfl
        | false => exact ih

theorem metaGet_metaSet_self (m : Metadata) (u : String) (v : PyVal) :
    metaGet (metaSet m u v) u = some v := by
  unfold metaSet metaGet
  rw [List.find?_append]
  have hnone : (m.filter (fun kv => kv.1 != u)).find? (fun kv => kv.1 == u) = none := by
    rw [List.find?_eq_none]
    intro kv hkv
    have := List.of_mem_filter hkv
    simpa using this
  simp [hnone]

theorem metaGet_metaSet_ne (m : Metadata) (u k : String) (v : PyVal)
    (hk : k ≠ u) :
    metaGet (metaSet m u v) k = metaGet m k := by
  unfold metaGet metaSet
  rw [List.find?_append, find?_filter_ne m u k hk]
  cases hf : m.find? (fun kv => kv.1 == k) with
  | some kv => simp
  | none =>
      simp only [Option.none_or]
      have hb : ((u, v).1 == k) = false := by
        simp only [beq_eq_false_iff_ne]
        exact fun h => hk h.symm
      simp [List.find?_cons, hb]

theorem metaSafe_filter (m : Metadata) :
    metaSafe (m.filter (fun kv => kv.2.isPrimitive)) = true := by
  unfold metaSafe
  rw [List.all_eq_true]
  intro kv hkv
  exact (List.mem_filter.mp hkv).2

theorem filter_of_metaSafe (m : Metadata) (h : metaSafe m = true) :
    m.filter (fun kv => kv.2.isPrimitive) = m := by
  apply List.filter_eq_self.mpr
  intro kv hkv
  unfold metaSafe at h
  rw [List.all_eq_true] at h
  exact h kv hkv

theorem metaSafe_metaSet (m : Metadata) (u : String) (v : PyVal)
    (hm : metaSafe m = true) (hv : v.isPrimitive = true) :
    metaSafe (metaSet m u v) = true := by
  unfold metaSafe metaSet
  rw [List.all_append, Bool.and_eq_true]
  constructor
  · rw [List.all_eq_true]
    intro kv hkv
    unfold metaSafe at hm
    rw [List.all_eq_true] at hm
    exact hm kv (List.mem_of_mem_filter hkv)
  · simpa using hv

theorem getUtility_metaSet_float (m : Metadata) (q : ℚ) :
    getUtility (metaSet m "utility_score" (.float q)) = q := by
  unfold getUtility
  rw [metaGet_metaSet_self]
  rfl

theorem matchesWhere_metaSet_ne (w : List (String × PyVal)) (m : Metadata)
    (u : String) (v : PyVal) (hw : ∀ kv ∈ w, kv.1 ≠ u) :
    matchesWhere w (metaSet m u v) = matchesWhere w m := by
  unfold matchesWhere
  induction w with
  | nil => rfl
  | cons kv rest ih =>
      simp only [List.all_cons]
      rw [metaGet_metaSet_ne m u kv.1 v (hw kv (List.mem_cons_self kv rest))]
      rw [ih (fun x hx => hw x (List.mem_cons_of_mem kv hx))]

/-! ## Concrete demonstration inputs -/

/-- A constant model-response oracle (responses are irrelevant to control
flow except through `score`, which defaults to `0.5` on an unparseable
response). -/
def demoOracle : Nat → PassOracle := fun _ =>
  { retrieved := []
    verdicts := none
    draft := "draft"
    evalResp := none
    reflection := "lesson" }

/-- The initial state shape used by the repository's Strategy-3 examples. -/
def demoState : WState :=
  { topic := "t"
    criteria := "c"
    current_draft := ""
    revision_history := []
    reflections := []
    iteration := 0
    max_iterations := 2
    score := 0
    score_threshold := 1
    critique := ""
    final_output := ""
    retrieved_memories := []
    graded_memories := [] }

/-! ## The claims -/

/-- C1: for every `WritingState` the retry decision is a deterministic
function of the state with no model call — `_should_retry_or_finish` routes
to `finalize` iff `score >= score_threshold` or `iteration >= max_iterations`,
and otherwise to `reflector`. -/
theorem retry_decision_deterministic (s : WState) :
    (should_retry_or_finish s = "finalize" ↔
      s.score ≥ s.score_threshold ∨ s.iteration ≥ s.max_iterations) ∧
    (should_retry_or_finish s = "reflector" ↔
      ¬(s.score ≥ s.score_threshold ∨ s.iteration ≥ s.max_iterations)) := by
  unfold should_retry_or_finish
  by_cases h : s.score ≥ s.score_threshold ∨ s.iteration ≥ s.max_iterations
  · rw [if_pos h]
    refine ⟨⟨fun _ => h, fun _ => rfl⟩, ⟨fun he => ?_, fun hn => absurd h hn⟩⟩
    exact absurd he (by decide)
  · rw [if_neg h]
    refine ⟨⟨fun he => ?_, fun hh => absurd hh h⟩, ⟨fun _ => h, fun _ => rfl⟩⟩
    exact absurd he (by decide)

/-- C2: a run started with `iteration = 0` and `max_iterations = M` has
`iteration` incremented exactly once per `reflector` step and by no other
node; the loop terminates (fuel is never exhausted, `finalize` is reached)
with at most `M` reflection steps and `iteration ≤ M` at finalize time,
whatever the model responses are. -/
theorem strategy3_terminates_bounded (orc : Nat → PassOracle) (M : Nat)
    (s0 : WState) (h0 : s0.iteration = 0) (hM : s0.max_iterations = M) :
    (∀ r s, (reflector_node r s).iteration = s.iteration + 1) ∧
    (∀ o s, (runPass o s).iteration = s.iteration) ∧
    (∀ s, (finalize_node s).iteration = s.iteration) ∧
    ∃ out, runStrategy3 orc s0 = some out ∧
      out.2 ≤ M ∧
      out.1.iteration = out.2 ∧
      out.1.iteration ≤ M ∧
      out.1.final_output = out.1.current_draft := by
  refine ⟨reflector_node_iteration, runPass_iteration,
    finalize_node_iteration, ?_⟩
  obtain ⟨out, hout, hi, hc, hm, hfo⟩ :=
    loopFuel_spec orc (s0.max_iterations + 1 - s0.iteration) s0 0
      (by omega) (by omega)
  exact ⟨out, hout, by omega, by omega, by omega, hfo⟩

/-- Witness for C2 at a concrete initial state and oracle. -/
theorem strategy3_terminates_bounded_witness :
    demoState.iteration = 0 ∧ demoState.max_iterations = 2 ∧
    ((∀ r s, (reflector_node r s).iteration = s.iteration + 1) ∧
     (∀ o s, (runPass o s).iteration = s.iteration) ∧
     (∀ s, (finalize_node s).iteration = s.iteration) ∧
     ∃ out, runStrategy3 demoOracle demoState = some out ∧
       out.2 ≤ 2 ∧
       out.1.iteration = out.2 ∧
       out.1.iteration ≤ 2 ∧
       out.1.final_output = out.1.current_draft) :=
  ⟨rfl, rfl, strategy3_terminates_bounded demoOracle 2 demoState rfl rfl⟩

/-- C8: the evaluate step never aborts — for every model response the
returned score is clamped into `[0, 1]`, and an unparseable response yields
the neutral score `0.5` with the placeholder critique. -/
theorem evaluator_never_aborts (resp : Option EvalParsed) (s : WState) :
    (0 ≤ (evaluator_node resp s).score ∧ (evaluator_node resp s).score ≤ 1) ∧
    (evaluator_node none s).score = 1 / 2 ∧
    (evaluator_node none s).critique = "無法解析評語" := by
  refine ⟨⟨?_, ?_⟩, ?_, rfl⟩
  · exact le_max_left 0 _
  · exact max_le (by norm_num) (min_le_left 1 _)
  · show max (0 : ℚ) (min 1 (1 / 2)) = 1 / 2
    norm_num

/-- C9: `ReflectionVectorStore.get_instance` constructs the store exactly
once per process: in any nonempty call sequence every call returns the
instance constructed by the first call (later `persist_directory` /
`collection_name` arguments are ignored, and the constructor runs once). -/
theorem get_instance_singleton (a0 : StoreCfg) (rest : List StoreCfg) :
    (getInstanceCalls (a0 :: rest) ⟨none, 0⟩).1 =
      List.replicate (rest.length + 1) (0, a0) ∧
    (getInstanceCalls (a0 :: rest) ⟨none, 0⟩).2 = ⟨some (0, a0), 1⟩ := by
  have saturated : ∀ (i : Nat × StoreCfg) (cnt : Nat) (as : List StoreCfg),
      getInstanceCalls as ⟨some i, cnt⟩ =
        (List.replicate as.length i, ⟨some i, cnt⟩) := by
    intro i cnt as
    induction as with
    | nil => rfl
    | cons a rest2 ih =>
        simp only [getInstanceCalls, get_instance, ih, List.length_cons,
          List.replicate_succ]
  constructor
  · simp only [getInstanceCalls, get_instance, saturated, List.replicate_succ]
  · simp only [getInstanceCalls, get_instance, saturated]

/-- C3 counterexample: one checkpointed transition of run `"run-1"` is not
recoverable after a process restart — `build_graph_strategy3` compiles with
`MemorySaver`, whose checkpoints live in process memory, so resuming by run
identifier after the restart finds no state at all (in particular not the
last checkpointed one). -/
theorem resume_after_restart_counterexample :
    getLatestCheckpoint
        (processRestart
          (putCheckpoint (⟨[]⟩ : CheckpointSaver WState) "run-1" demoState))
        "run-1" = none ∧
    ¬ getLatestCheckpoint
        (processRestart
          (putCheckpoint (⟨[]⟩ : CheckpointSaver WState) "run-1" demoState))
        "run-1" = some demoState := by
  refine ⟨rfl, ?_⟩
  intro h
  exact Option.noConfusion h

/-- C3 amended: within one process lifetime, resuming a run by its identifier
returns exactly the last state checkpointed under that identifier, and
checkpoints of other run identifiers do not disturb it; across a process
restart the checkpoints are lost, because the graph is compiled with the
in-memory `MemorySaver` checkpointer. -/
theorem resume_within_process (cs : CheckpointSaver WState) (tid : String)
    (st : WState) :
    getLatestCheckpoint (putCheckpoint cs tid st) tid = some st ∧
    (∀ tid2 st2, tid2 ≠ tid →
      getLatestCheckpoint (putCheckpoint (putCheckpoint cs tid st) tid2 st2)
        tid = some st) ∧
    (∀ tid3, getLatestCheckpoint (processRestart (putCheckpoint cs tid st))
        tid3 = none) := by
  refine ⟨?_, ?_, fun tid3 => rfl⟩
  · unfold getLatestCheckpoint putCheckpoint
    simp
  · intro tid2 st2 hne
    unfold getLatestCheckpoint putCheckpoint
    have hb : ((tid2, st2).1 == tid) = false := by
      simp only [beq_eq_false_iff_ne]
      exact hne
    simp [List.find?_cons, hb]

/-- Witness for C3's amended theorem at a concrete saver and run id. -/
theorem resume_within_process_witness :
    getLatestCheckpoint
        (putCheckpoint (⟨[]⟩ : CheckpointSaver WState) "run-1" demoState)
        "run-1" = some demoState :=
  (resume_within_process ⟨[]⟩ "run-1" demoState).1

theorem metaGet_filter_prim_metaSet_self (m : Metadata) (u : String)
    (v : PyVal) (hv : v.isPrimitive = true) :
    metaGet ((metaSet m u v).filter (fun kv => kv.2.isPrimitive)) u =
      some v := by
  unfold metaSet metaGet
  rw [List.filter_append, List.find?_append]
  have h1 : ((m.filter (fun kv => kv.1 != u)).filter
      (fun kv => kv.2.isPrimitive)).find? (fun kv => kv.1 == u) = none := by
    rw [List.find?_eq_none]
    intro kv hkv
    have := (List.mem_filter.mp (List.mem_filter.mp hkv).1).2
    simpa using this
  rw [h1, Option.none_or]
  simp [List.filter_cons, hv, List.find?_cons]

theorem matchesWhere_dedup_metaSet (M : Metadata) (q : ℚ)
    (hsafe : metaSafe M = true) :
    matchesWhere (dedupFilterItems M)
      ((metaSet M "utility_score" (.float q)).filter
        (fun kv => kv.2.isPrimitive)) = true := by
  have hms : metaSafe (metaSet M "utility_score" (.float q)) = true :=
    metaSafe_metaSet M _ _ hsafe rfl
  rw [filter_of_metaSafe _ hms]
  unfold matchesWhere
  rw [List.all_eq_true]
  intro kv hkv
  unfold dedupFilterItems at hkv
  rw [List.mem_filterMap] at hkv
  obtain ⟨k, hkmem, hf⟩ := hkv
  cases hm : metaGet M k with
  | none => rw [hm] at hf; exact absurd hf (by simp)
  | some v =>
      rw [hm] at hf
      simp only [Option.map_some'] at hf
      cases hf
      have hk : k ≠ "utility_score" := by
        simp only [List.mem_cons, List.not_mem_nil, or_false] at hkmem
        rcases hkmem with rfl | rfl <;> decide
      rw [metaGet_metaSet_ne M _ k _ hk, hm]
      simp

/-- C4: `add_reflection_with_dedup` skips the write and returns `None`
exactly when the single nearest record in the `(task_type, criteria_hash)`
scope has similarity at least `dedup_threshold` to the text; otherwise it
writes exactly one new record whose metadata has `utility_score` initialized
to `1.0` and returns its id. Writing the same text twice into the same scope
with threshold at most `1.0` leaves exactly one stored record, the second
call returning `None`. -/
theorem dedup_write_spec {E : Type} (embed : String → E) (dist : E → E → ℚ)
    (T : String) (M : Metadata) (d : ℚ) (c : Collection E)
    (hself : dist (embed T) (embed T) = 0) (hd : d ≤ 1)
    (hsafe : metaSafe M = true) :
    (∀ r, queryNearest dist (embed T) (dedupFilterItems M) c = some r →
        1 - dist (embed T) r.embedding ≥ d →
        add_reflection_with_dedup embed dist T M d c = (none, c)) ∧
    (∀ r, queryNearest dist (embed T) (dedupFilterItems M) c = some r →
        ¬(1 - dist (embed T) r.embedding ≥ d) →
        add_reflection_with_dedup embed dist T M d c =
          (some c.nextId,
           (add_reflection embed T (metaSet M "utility_score" (.float 1)) c).2)) ∧
    (queryNearest dist (embed T) (dedupFilterItems M) c = none →
        add_reflection_with_dedup embed dist T M d c =
          (some c.nextId,
           (add_reflection embed T (metaSet M "utility_score" (.float 1)) c).2)) ∧
    ((add_reflection embed T (metaSet M "utility_score" (.float 1)) c).2.recs =
        c.recs ++ [⟨c.nextId, T, embed T,
          (metaSet M "utility_score" (.float 1)).filter
            (fun kv => kv.2.isPrimitive)⟩]) ∧
    (metaGet ((metaSet M "utility_score" (.float 1)).filter
        (fun kv => kv.2.isPrimitive)) "utility_score" = some (.float 1)) ∧
    ((add_reflection_with_dedup embed dist T M d ⟨[], 0⟩).1 = some 0 ∧
     (add_reflection_with_dedup embed dist T M d ⟨[], 0⟩).2.recs.length = 1 ∧
     add_reflection_with_dedup embed dist T M d
        (add_reflection_with_dedup embed dist T M d ⟨[], 0⟩).2 =
       (none, (add_reflection_with_dedup embed dist T M d ⟨[], 0⟩).2)) := by
  refine ⟨?_, ?_, ?_, rfl, metaGet_filter_prim_metaSet_self M _ _ rfl, ?_⟩
  · intro r hq hsim
    simp only [add_reflection_with_dedup, hq, hsim, ge_iff_le, if_pos]
  · intro r hq hsim
    simp only [add_reflection_with_dedup, hq, hsim, ge_iff_le, if_neg,
      not_false_iff]
    rfl
  · intro hq
    simp only [add_reflection_with_dedup, hq]
    rfl
  · have hq0 : queryNearest dist (embed T) (dedupFilterItems M)
        (⟨[], 0⟩ : Collection E) = none := rfl
    have hfirst : add_reflection_with_dedup embed dist T M d
        (⟨[], 0⟩ : Collection E) =
        (some 0,
         ⟨[⟨0, T, embed T,
             (metaSet M "utility_score" (.float 1)).filter
               (fun kv => kv.2.isPrimitive)⟩], 1⟩) := by
      simp only [add_reflection_with_dedup, hq0]
      rfl
    set W : Metadata :=
      (metaSet M "utility_score" (.float 1)).filter
        (fun kv => kv.2.isPrimitive) with hW
    set rec1 : MemRec E := ⟨0, T, embed T, W⟩ with hrec
    have hmatch : matchesWhere (dedupFilterItems M) W = true :=
      matchesWhere_dedup_metaSet M 1 hsafe
    have hq1 : queryNearest dist (embed T) (dedupFilterItems M)
        (⟨[rec1], 1⟩ : Collection E) = some rec1 := by
      unfold queryNearest getWhere
      simp only [List.filter_cons, hmatch, if_pos, List.filter_nil]
      exact List.argmin_singleton
    have hsim1 : 1 - dist (embed T) rec1.embedding ≥ d := by
      have : rec1.embedding = embed T := rfl
      rw [this, hself]
      linarith
    refine ⟨?_, ?_, ?_⟩
    · rw [hfirst]
    · rw [hfirst]
      rfl
    · rw [hfirst]
      simp only [add_reflection_with_dedup, hq1, hsim1, ge_iff_le, if_pos]

/-- Dummy one-point embedding space for concrete witnesses. -/
def unitEmbed : String → Unit := fun _ => ()

/-- Dummy distance on the one-point space (every text is identical). -/
def unitDist : Unit → Unit → ℚ := fun _ _ => 0

/-- A concrete `(task_type, criteria_hash)` scope metadata. -/
def demoMeta : Metadata :=
  [("task_type", .str "writing"), ("criteria_hash", .str "h1")]

/-- Witness for C4: the duplicate-write scenario at a concrete store. -/
theorem dedup_write_spec_witness :
    unitDist (unitEmbed "lesson") (unitEmbed "lesson") = 0 ∧ ((1 : ℚ) ≤ 1) ∧
    metaSafe demoMeta = true ∧
    ((add_reflection_with_dedup unitEmbed unitDist "lesson" demoMeta 1
        ⟨[], 0⟩).1 = some 0 ∧
     (add_reflection_with_dedup unitEmbed unitDist "lesson" demoMeta 1
        ⟨[], 0⟩).2.recs.length = 1 ∧
     add_reflection_with_dedup unitEmbed unitDist "lesson" demoMeta 1
        (add_reflection_with_dedup unitEmbed unitDist "lesson" demoMeta 1
          ⟨[], 0⟩).2 =
       (none,
        (add_reflection_with_dedup unitEmbed unitDist "lesson" demoMeta 1
          ⟨[], 0⟩).2)) :=
  ⟨rfl, le_refl 1, by decide,
   (dedup_write_spec unitEmbed unitDist "lesson" demoMeta 1 ⟨[], 0⟩ rfl
      (le_refl 1) (by decide)).2.2.2.2.2⟩

/-- C5: one decay-and-prune pass reduces every in-scope record's
`utility_score` by exactly `decay_rate`, deletes the record iff the reduced
score falls below `prune_threshold`, and persists every survivor with the
reduced score; in particular a record at `prune_floor + decay_rate + ε`
survives with score reduced by `decay_rate` and one at
`prune_floor + decay_rate − ε` is deleted. -/
theorem decay_prune_spec {E : Type} (mf : Metadata) (dr pf ε : ℚ)
    (r : MemRec E) (c : Collection E)
    (hin : matchesWhere mf r.meta = true) (hε : 0 < ε) :
    ((decay_and_prune mf dr pf c).1.recs =
        c.recs.filterMap (decayStep mf dr pf)) ∧
    (decayStep mf dr pf r = none ↔ getUtility r.meta - dr < pf) ∧
    (pf ≤ getUtility r.meta - dr →
        decayStep mf dr pf r =
          some { r with
                 meta := metaSet r.meta "utility_score"
                           (.float (getUtility r.meta - dr)) }) ∧
    (getUtility (metaSet r.meta "utility_score"
        (.float (getUtility r.meta - dr))) = getUtility r.meta - dr) ∧
    (getUtility r.meta = pf + dr + ε →
        decayStep mf dr pf r =
          some { r with
                 meta := metaSet r.meta "utility_score"
                           (.float (pf + ε)) }) ∧
    (getUtility r.meta = pf + dr - ε → decayStep mf dr pf r = none) := by
  have hstep : decayStep mf dr pf r =
      if getUtility r.meta - dr < pf then none
      else some { r with
                  meta := metaSet r.meta "utility_score"
                            (.float (getUtility r.meta - dr)) } := by
    unfold decayStep
    rw [hin]
    simp
  refine ⟨rfl, ?_, ?_, getUtility_metaSet_float _ _, ?_, ?_⟩
  · rw [hstep]
    by_cases h : getUtility r.meta - dr < pf
    · simp [h]
    · simp [h]
  · intro h
    rw [hstep, if_neg (not_lt.mpr h)]
  · intro h
    have he : getUtility r.meta - dr = pf + ε := by rw [h]; ring
    rw [hstep, he, if_neg (by linarith)]
  · intro h
    have he : getUtility r.meta - dr = pf - ε := by rw [h]; ring
    rw [hstep, he, if_pos (by linarith)]

/-- A concrete in-scope record carrying a given `utility_score`. -/
def mkLesson (i : Nat) (u : ℚ) : MemRec Unit :=
  ⟨i, "lesson " ++ toString i, (), metaSet demoMeta "utility_score" (.float u)⟩

/-- Witness for C5 at a concrete record and concrete policy constants. -/
theorem decay_prune_spec_witness :
    matchesWhere demoMeta (mkLesson 0 1).meta = true ∧ (0 : ℚ) < 1 / 10 ∧
    (getUtility (mkLesson 0 1).meta = 3 / 10 + 11 / 20 + 1 / 20 + 1 / 10 →
      decayStep demoMeta (1 / 20) (3 / 10 + 11 / 20) (mkLesson 0 1) =
        some ⟨(mkLesson 0 1).id, (mkLesson 0 1).document,
          (mkLesson 0 1).embedding,
          metaSet (mkLesson 0 1).meta "utility_score"
            (.float (3 / 10 + 11 / 20 + 1 / 10))⟩) :=
  ⟨by decide, by norm_num,
   (decay_prune_spec demoMeta (1 / 20) (3 / 10 + 11 / 20) (1 / 10)
      (mkLesson 0 1) ⟨[], 0⟩ (by decide) (by norm_num)).2.2.2.2.1⟩

/-! ## The metadata-type invariant (records only ever hold primitive
metadata values) -/

/-- Every record of the collection has ChromaDB-primitive metadata only. -/
def storeSafe {E : Type} (c : Collection E) : Bool :=
  c.recs.all (fun r => metaSafe r.meta)

theorem storeSafe_mem {E : Type} {c : Collection E} (h : storeSafe c = true)
    {r : MemRec E} (hr : r ∈ c.recs) : metaSafe r.meta = true := by
  unfold storeSafe at h
  rw [List.all_eq_true] at h
  exact h r hr

theorem storeSafe_of_forall {E : Type} {c : Collection E}
    (h : ∀ r ∈ c.recs, metaSafe r.meta = true) : storeSafe c = true := by
  unfold storeSafe
  rw [List.all_eq_true]
  exact h

theorem storeSafe_add_reflection {E : Type} (embed : String → E) (T : String)
    (md : Metadata) (c : Collection E) (h : storeSafe c = true) :
    storeSafe (add_reflection embed T md c).2 = true := by
  apply storeSafe_of_forall
  intro r hr
  simp only [add_reflection, List.mem_append, List.mem_singleton] at hr
  rcases hr with hr | hr
  · exact storeSafe_mem h hr
  · subst hr
    exact metaSafe_filter md

theorem storeSafe_dedup {E : Type} (embed : String → E) (dist : E → E → ℚ)
    (T : String) (md : Metadata) (d : ℚ) (c : Collection E)
    (h : storeSafe c = true) :
    storeSafe (add_reflection_with_dedup embed dist T md d c).2 = true := by
  cases hq : queryNearest dist (embed T) (dedupFilterItems md) c with
  | none =>
      simp only [add_reflection_with_dedup, hq]
      exact storeSafe_add_reflection embed T _ c h
  | some r =>
      by_cases hs : 1 - dist (embed T) r.embedding ≥ d
      · simp only [add_reflection_with_dedup, hq, hs, ge_iff_le, if_pos]
        exact h
      · simp only [add_reflection_with_dedup, hq, hs, ge_iff_le, if_neg,
          not_false_iff]
        exact storeSafe_add_reflection embed T _ c h

theorem storeSafe_boost {E : Type} (ids : List Nat) (amt : ℚ)
    (c : Collection E) (h : storeSafe c = true) :
    storeSafe (boost_utility ids amt c) = true := by
  unfold boost_utility
  split
  · exact h
  · apply storeSafe_of_forall
    intro r hr
    rw [List.mem_map] at hr
    obtain ⟨r0, hr0, hmap⟩ := hr
    subst hmap
    by_cases hid : r0.id ∈ ids
    · simp only [hid, if_pos]
      exact metaSafe_metaSet _ _ _ (storeSafe_mem h hr0) rfl
    · simp only [hid, if_neg, not_false_iff]
      exact storeSafe_mem h hr0

theorem storeSafe_decay {E : Type} (mf : Metadata) (dr pf : ℚ)
    (c : Collection E) (h : storeSafe c = true) :
    storeSafe (decay_and_prune mf dr pf c).1 = true := by
  apply storeSafe_of_forall
  intro r hr
  have hr2 : r ∈ c.recs.filterMap (decayStep mf dr pf) := hr
  rw [List.mem_filterMap] at hr2
  obtain ⟨r0, hr0, hstep⟩ := hr2
  unfold decayStep at hstep
  by_cases hm : matchesWhere mf r0.meta = true
  · rw [hm] at hstep
    simp only [if_pos] at hstep
    by_cases hlt : getUtility r0.meta - dr < pf
    · rw [if_pos hlt] at hstep
      exact absurd hstep (by simp)
    · rw [if_neg hlt] at hstep
      simp only [Option.some_inj] at hstep
      subst hstep
      exact metaSafe_metaSet _ _ _ (storeSafe_mem h hr0) rfl
  · rw [Bool.not_eq_true] at hm
    rw [hm] at hstep
    simp only [Bool.false_eq_true, if_false, Option.some_inj] at hstep
    subst hstep
    exact storeSafe_mem h hr0

theorem storeSafe_writeLoop {E : Type} (embed : String → E)
    (wOk : Nat → Bool) (bm : Metadata) :
    ∀ (ps : List String) (i : Nat) (acc : List Nat) (c : Collection E),
      storeSafe c = true →
      storeSafe
        (match consolidateWriteLoop embed wOk bm ps i acc c with
         | .error (_, c1) => c1
         | .ok (_, c1) => c1) = true := by
  intro ps
  induction ps with
  | nil => intro i acc c h; exact h
  | cons p rest ih =>
      intro i acc c h
      by_cases hw : wOk i = true
      · have hu : consolidateWriteLoop embed wOk bm (p :: rest) i acc c =
            consolidateWriteLoop embed wOk bm rest (i + 1)
              (acc ++ [(add_reflection embed p bm c).1])
              (add_reflection embed p bm c).2 := by
          conv_lhs => rw [consolidateWriteLoop]
          simp [hw]
        rw [hu]
        exact ih (i + 1) _ _ (storeSafe_add_reflection embed p bm c h)
      · have hu : consolidateWriteLoop embed wOk bm (p :: rest) i acc c =
            .error (acc, c) := by
          conv_lhs => rw [consolidateWriteLoop]
          simp [hw]
        rw [hu]
        exact h

theorem storeSafe_filter_recs {E : Type} (c : Collection E)
    (p : MemRec E → Bool) (h : storeSafe c = true) :
    storeSafe ({ c with recs := c.recs.filter p } : Collection E) = true := by
  apply storeSafe_of_forall
  intro r hr
  exact storeSafe_mem h (List.mem_of_mem_filter hr)

theorem storeSafe_consolidate {E : Type} (embed : String → E) (raw : String)
    (wOk : Nat → Bool) (mf : Metadata) (mc : Nat) (c : Collection E)
    (h : storeSafe c = true) :
    storeSafe (consolidate embed raw wOk mf mc c).2 = true := by
  by_cases h1 : (getWhere mf c).length ≤ mc
  · simp only [consolidate, h1, if_pos]
    exact h
  · by_cases h2 : parse_principles raw = []
    · simp only [consolidate, h1, h2, if_neg, if_pos, not_false_iff]
      exact h
    · have hloop := storeSafe_writeLoop embed wOk
        (metaSet (metaSet (mf.filter (fun kv => kv.2.isPrimitive))
          "utility_score" (.float 1)) "consolidated" (.bool true))
        (parse_principles raw) 0 [] c h
      cases hk : consolidateWriteLoop embed wOk
          (metaSet (metaSet (mf.filter (fun kv => kv.2.isPrimitive))
            "utility_score" (.float 1)) "consolidated" (.bool true))
          (parse_principles raw) 0 [] c with
      | error pr =>
          rw [hk] at hloop
          obtain ⟨ids, c1⟩ := pr
          simp only [consolidate, h1, h2, hk, if_neg, not_false_iff]
          exact storeSafe_filter_recs c1 _ hloop
      | ok pr =>
          rw [hk] at hloop
          obtain ⟨ids, c1⟩ := pr
          simp only [consolidate, h1, h2, hk, if_neg, not_false_iff]
          exact storeSafe_filter_recs c1 _ hloop

/-- C10: every record written by `add_reflection` keeps only `str`/`int`/
`float`/`bool` metadata values (other-typed entries are silently dropped
before the write), and the all-records-primitive invariant is preserved by
every store operation (`add_reflection`, `add_reflection_with_dedup`,
`boost_utility`, `_decay_and_prune`, `_consolidate`, `run_maintenance`). -/
theorem metadata_type_invariant {E : Type} (embed : String → E)
    (dist : E → E → ℚ) (T raw : String) (md mf : Metadata) (d dr pf amt : ℚ)
    (ids : List Nat) (wOk : Nat → Bool) (cth : Nat) (c : Collection E)
    (h : storeSafe c = true) :
    ((add_reflection embed T md c).2.recs.map (fun r => r.meta) =
        c.recs.map (fun r => r.meta) ++
          [md.filter (fun kv => kv.2.isPrimitive)]) ∧
    metaSafe (md.filter (fun kv => kv.2.isPrimitive)) = true ∧
    storeSafe (add_reflection embed T md c).2 = true ∧
    storeSafe (add_reflection_with_dedup embed dist T md d c).2 = true ∧
    storeSafe (boost_utility ids amt c) = true ∧
    storeSafe (decay_and_prune mf dr pf c).1 = true ∧
    storeSafe (consolidate embed raw wOk mf cth c).2 = true ∧
    storeSafe (run_maintenance embed raw wOk mf dr pf cth c) = true := by
  refine ⟨by simp [add_reflection], metaSafe_filter md,
    storeSafe_add_reflection embed T md c h,
    storeSafe_dedup embed dist T md d c h,
    storeSafe_boost ids amt c h,
    storeSafe_decay mf dr pf c h,
    storeSafe_consolidate embed raw wOk mf cth c h, ?_⟩
  unfold run_maintenance
  exact storeSafe_consolidate embed raw wOk mf cth _
    (storeSafe_decay mf dr pf c h)

/-- Witness for C10 at a concrete store, including a non-primitive metadata
entry being dropped. -/
theorem metadata_type_invariant_witness :
    storeSafe (⟨[mkLesson 0 1], 1⟩ : Collection Unit) = true ∧
    (add_reflection unitEmbed "x" [("topic", .str "t"), ("bad", .other)]
        (⟨[mkLesson 0 1], 1⟩ : Collection Unit)).2.recs.map (fun r => r.meta) =
      [(mkLesson 0 1).meta] ++ [[("topic", .str "t")]] :=
  ⟨by decide,
   (metadata_type_invariant unitEmbed unitDist "x" "raw"
      [("topic", .str "t"), ("bad", .other)] demoMeta 1 0 0 0 [] (fun _ => true)
      10 ⟨[mkLesson 0 1], 1⟩ (by decide)).1⟩

/-! ## Structure of the consolidation write loop -/

theorem consolidateWriteLoop_error {E : Type} (embed : String → E)
    (wOk : Nat → Bool) (bm : Metadata) :
    ∀ (ps : List String) (i : Nat) (acc : List Nat) (c : Collection E)
      (ids : List Nat) (c1 : Collection E),
      consolidateWriteLoop embed wOk bm ps i acc c = .error (ids, c1) →
      ∃ extra : List (MemRec E),
        c1.recs = c.recs ++ extra ∧
        ids = acc ++ extra.map (fun r => r.id) ∧
        (∀ r ∈ extra, c.nextId ≤ r.id) := by
  intro ps
  induction ps with
  | nil =>
      intro i acc c ids c1 h
      rw [consolidateWriteLoop] at h
      exact absurd h (by simp)
  | cons p rest ih =>
      intro i acc c ids c1 h
      by_cases hw : wOk i = true
      · have hu : consolidateWriteLoop embed wOk bm (p :: rest) i acc c =
            consolidateWriteLoop embed wOk bm rest (i + 1)
              (acc ++ [(add_reflection embed p bm c).1])
              (add_reflection embed p bm c).2 := by
          conv_lhs => rw [consolidateWriteLoop]
          simp [hw]
        rw [hu] at h
        obtain ⟨extra, hrecs, hids, hbound⟩ := ih _ _ _ _ _ h
        refine ⟨⟨c.nextId, p, embed p,
          bm.filter (fun kv => kv.2.isPrimitive)⟩ :: extra, ?_, ?_, ?_⟩
        · rw [hrecs]
          simp [add_reflection]
        · rw [hids]
          simp [add_reflection]
        · intro r hr
          rcases List.mem_cons.mp hr with rfl | hr
          · exact le_refl _
          · have := hbound r hr
            simp only [add_reflection] at this
            omega
      · have hu : consolidateWriteLoop embed wOk bm (p :: rest) i acc c =
            .error (acc, c) := by
          conv_lhs => rw [consolidateWriteLoop]
          simp [hw]
        rw [hu] at h
        simp only [Except.error.injEq, Prod.mk.injEq] at h
        obtain ⟨hids, hc⟩ := h
        refine ⟨[], ?_, ?_, ?_⟩
        · rw [← hc]; simp
        · rw [← hids]; simp
        · intro r hr; exact absurd hr (List.not_mem_nil r)

theorem consolidateWriteLoop_ok {E : Type} (embed : String → E)
    (wOk : Nat → Bool) (bm : Metadata) :
    ∀ (ps : List String) (i : Nat) (acc : List Nat) (c : Collection E)
      (ids : List Nat) (c1 : Collection E),
      consolidateWriteLoop embed wOk bm ps i acc c = .ok (ids, c1) →
      ∃ extra : List (MemRec E),
        c1.recs = c.recs ++ extra ∧
        extra.length = ps.length ∧
        (∀ r ∈ extra, c.nextId ≤ r.id ∧
          r.meta = bm.filter (fun kv => kv.2.isPrimitive) ∧
          r.document ∈ ps) := by
  intro ps
  induction ps with
  | nil =>
      intro i acc c ids c1 h
      rw [consolidateWriteLoop] at h
      simp only [Except.ok.injEq, Prod.mk.injEq] at h
      obtain ⟨_, hc⟩ := h
      refine ⟨[], by rw [← hc]; simp, rfl, ?_⟩
      intro r hr; exact absurd hr (List.not_mem_nil r)
  | cons p rest ih =>
      intro i acc c ids c1 h
      by_cases hw : wOk i = true
      · have hu : consolidateWriteLoop embed wOk bm (p :: rest) i acc c =
            consolidateWriteLoop embed wOk bm rest (i + 1)
              (acc ++ [(add_reflection embed p bm c).1])
              (add_reflection embed p bm c).2 := by
          conv_lhs => rw [consolidateWriteLoop]
          simp [hw]
        rw [hu] at h
        obtain ⟨extra, hrecs, hlen, hprops⟩ := ih _ _ _ _ _ h
        refine ⟨⟨c.nextId, p, embed p,
          bm.filter (fun kv => kv.2.isPrimitive)⟩ :: extra, ?_, ?_, ?_⟩
        · rw [hrecs]
          simp [add_reflection]
        · simp [hlen]
        · intro r hr
          rcases List.mem_cons.mp hr with rfl | hr
          · exact ⟨le_refl _, rfl, List.mem_cons_self p rest⟩
          · obtain ⟨hb, hm, hd⟩ := hprops r hr
            simp only [add_reflection] at hb
            exact ⟨by omega, hm, List.mem_cons_of_mem p hd⟩
      · have hu : consolidateWriteLoop embed wOk bm (p :: rest) i acc c =
            .error (acc, c) := by
          conv_lhs => rw [consolidateWriteLoop]
          simp [hw]
        rw [hu] at h
        exact absurd h (by simp)

theorem base_meta_flags (mf : Metadata) :
    metaGet ((metaSet (metaSet (mf.filter (fun kv => kv.2.isPrimitive))
        "utility_score" (.float 1)) "consolidated" (.bool true)).filter
          (fun kv => kv.2.isPrimitive)) "consolidated" = some (.bool true) ∧
    metaGet ((metaSet (metaSet (mf.filter (fun kv => kv.2.isPrimitive))
        "utility_score" (.float 1)) "consolidated" (.bool true)).filter
          (fun kv => kv.2.isPrimitive)) "utility_score" = some (.float 1) := by
  constructor
  · exact metaGet_filter_prim_metaSet_self _ "consolidated" (.bool true) rfl
  · have hsafe : metaSafe (metaSet (metaSet
        (mf.filter (fun kv => kv.2.isPrimitive)) "utility_score" (.float 1))
        "consolidated" (.bool true)) = true :=
      metaSafe_metaSet _ _ _
        (metaSafe_metaSet _ _ _ (metaSafe_filter mf) rfl) rfl
    rw [filter_of_metaSafe _ hsafe]
    rw [metaGet_metaSet_ne _ _ _ _ (by decide)]
    exact metaGet_metaSet_self _ _ _

theorem idsFresh_mem {E : Type} {c : Collection E} (h : idsFresh c = true)
    {r : MemRec E} (hr : r ∈ c.recs) : r.id < c.nextId := by
  unfold idsFresh at h
  rw [List.all_eq_true] at h
  have := h r hr
  simpa using this

theorem consolidateWriteLoop_allOk {E : Type} (embed : String → E)
    (wOk : Nat → Bool) (bm : Metadata) (hAll : ∀ i, wOk i = true) :
    ∀ (ps : List String) (i : Nat) (acc : List Nat) (c : Collection E),
      ∃ out, consolidateWriteLoop embed wOk bm ps i acc c = .ok out := by
  intro ps
  induction ps with
  | nil =>
      intro i acc c
      exact ⟨(acc, c), by rw [consolidateWriteLoop]⟩
  | cons p rest ih =>
      intro i acc c
      obtain ⟨out, hout⟩ := ih (i + 1)
        (acc ++ [(add_reflection embed p bm c).1])
        (add_reflection embed p bm c).2
      refine ⟨out, ?_⟩
      conv_lhs => rw [consolidateWriteLoop]
      simp [hAll i, hout]

/-- Shared characterization of `_consolidate`'s outcomes: on failure the
collection is exactly the input; on success the scope records are replaced by
the freshly written principle records (one per parsed principle, all carrying
the base scope metadata); and with an over-full scope, parseable principles
and no write failure the success branch is taken. -/
theorem consolidate_outcome {E : Type} (embed : String → E) (raw : String)
    (wOk : Nat → Bool) (mf : Metadata) (mc : Nat) (c : Collection E)
    (hfresh : idsFresh c = true)
    (hnodup : (c.recs.map (fun r => r.id)).Nodup) :
    ((consolidate embed raw wOk mf mc c).1 = false →
        (consolidate embed raw wOk mf mc c).2.recs = c.recs) ∧
    ((consolidate embed raw wOk mf mc c).1 = true →
        parse_principles raw ≠ [] ∧
        ∃ newRecs : List (MemRec E),
          newRecs.length = (parse_principles raw).length ∧
          (consolidate embed raw wOk mf mc c).2.recs =
            c.recs.filter (fun r => !matchesWhere mf r.meta) ++ newRecs ∧
          ∀ r ∈ newRecs, r.meta =
            (metaSet (metaSet (mf.filter (fun kv => kv.2.isPrimitive))
              "utility_score" (.float 1)) "consolidated" (.bool true)).filter
                (fun kv => kv.2.isPrimitive)) ∧
    (¬(getWhere mf c).length ≤ mc → parse_principles raw ≠ [] →
        (∀ i, wOk i = true) → (consolidate embed raw wOk mf mc c).1 = true) := by
  by_cases h1 : (getWhere mf c).length ≤ mc
  · refine ⟨?_, ?_, ?_⟩
    · intro _
      simp only [consolidate, h1, if_pos]
    · intro htrue
      simp only [consolidate, h1, if_pos] at htrue
      exact absurd htrue (by simp)
    · intro h1' _ _
      exact absurd h1 h1'
  · by_cases h2 : parse_principles raw = []
    · refine ⟨?_, ?_, ?_⟩
      · intro _
        simp only [consolidate, h1, h2, if_neg, if_pos, not_false_iff]
      · intro htrue
        simp only [consolidate, h1, h2, if_neg, if_pos, not_false_iff] at htrue
        exact absurd htrue (by simp)
      · intro _ h2' _
        exact absurd h2 h2'
    · cases hk : consolidateWriteLoop embed wOk
          (metaSet (metaSet (mf.filter (fun kv => kv.2.isPrimitive))
            "utility_score" (.float 1)) "consolidated" (.bool true))
          (parse_principles raw) 0 [] c with
      | error pr =>
          obtain ⟨ids, c1⟩ := pr
          obtain ⟨extra, hrecs, hids, hbound⟩ :=
            consolidateWriteLoop_error embed wOk _ _ _ _ _ _ _ hk
          rw [List.nil_append] at hids
          refine ⟨?_, ?_, ?_⟩
          · intro _
            simp only [consolidate, h1, h2, hk, if_neg, not_false_iff]
            rw [hrecs, List.filter_append]
            have hA : c.recs.filter (fun r => r.id ∉ ids) = c.recs := by
              apply List.filter_eq_self.mpr
              intro r hr
              have hlt := idsFresh_mem hfresh hr
              simp only [decide_eq_true_eq]
              intro hmem
              rw [hids, List.mem_map] at hmem
              obtain ⟨r2, hr2, hid2⟩ := hmem
              have := hbound r2 hr2
              omega
            have hB : extra.filter (fun r => (r.id ∉ ids : Bool)) = [] := by
              apply List.filter_eq_nil_iff.mpr
              intro r hr
              simp only [decide_eq_true_eq, not_not]
              rw [hids, List.mem_map]
              exact ⟨r, hr, rfl⟩
            rw [hA, hB, List.append_nil]
          · intro htrue
            simp only [consolidate, h1, h2, hk, if_neg, not_false_iff] at htrue
            exact absurd htrue (by simp)
          · intro _ _ hAll
            obtain ⟨out, hout⟩ :=
              consolidateWriteLoop_allOk embed wOk _ hAll
                (parse_principles raw) 0 [] c
            rw [hk] at hout
            exact absurd hout (by simp)
      | ok pr =>
          obtain ⟨ids, c1⟩ := pr
          obtain ⟨extra, hrecs, hlen, hprops⟩ :=
            consolidateWriteLoop_ok embed wOk _ _ _ _ _ _ _ hk
          refine ⟨?_, ?_, ?_⟩
          · intro hfalse
            simp only [consolidate, h1, h2, hk, if_neg, not_false_iff] at hfalse
            exact absurd hfalse (by simp)
          · intro _
            refine ⟨h2, extra, hlen, ?_, ?_⟩
            · simp only [consolidate, h1, h2, hk, if_neg, not_false_iff]
              rw [hrecs, List.filter_append]
              have hA : c.recs.filter
                  (fun r => (r.id ∉ (getWhere mf c).map (fun r2 => r2.id) : Bool)) =
                  c.recs.filter (fun r => !matchesWhere mf r.meta) := by
                apply List.filter_congr
                intro r hr
                by_cases hm : matchesWhere mf r.meta = true
                · have hmem : r.id ∈ (getWhere mf c).map (fun r2 => r2.id) :=
                    List.mem_map.mpr ⟨r, List.mem_filter.mpr ⟨hr, hm⟩, rfl⟩
                  simp [hmem, hm]
                · have hnmem : r.id ∉ (getWhere mf c).map (fun r2 => r2.id) := by
                    rw [List.mem_map]
                    rintro ⟨r2, hr2, hid2⟩
                    have hr2c := List.mem_filter.mp hr2
                    have : r2 = r :=
                      List.inj_on_of_nodup_map hnodup hr2c.1 hr hid2
                    rw [this] at hr2c
                    exact hm hr2c.2
                  simp only [Bool.not_eq_true] at hm
                  simp [hnmem, hm]
              have hB : extra.filter
                  (fun r => (r.id ∉ (getWhere mf c).map (fun r2 => r2.id) : Bool)) =
                  extra := by
                apply List.filter_eq_self.mpr
                intro r hr
                simp only [decide_eq_true_eq]
                rw [List.mem_map]
                rintro ⟨r2, hr2, hid2⟩
                have h3 := idsFresh_mem hfresh (List.mem_filter.mp hr2).1
                have h4 := (hprops r hr).1
                omega
              rw [hA, hB]
            · intro r hr
              exact (hprops r hr).2.1
          · intro _ _ _
            simp only [consolidate, h1, h2, hk, if_neg, not_false_iff]

/-- C6: consolidation is fail-safe and atomic w.r.t. old records — when it
reports failure the collection is exactly as before (already-written new
principle records rolled back, originals untouched), and when it reports
success the scope's originals are replaced by a nonempty batch of new
principle records (written before the originals were deleted), each flagged
`consolidated` with `utility_score` `1.0`; no outcome both loses the old
lessons and leaves no replacement. -/
theorem consolidate_failsafe {E : Type} (embed : String → E) (raw : String)
    (wOk : Nat → Bool) (mf : Metadata) (mc : Nat) (c : Collection E)
    (hfresh : idsFresh c = true)
    (hnodup : (c.recs.map (fun r => r.id)).Nodup) :
    ((consolidate embed raw wOk mf mc c).1 = false →
        (consolidate embed raw wOk mf mc c).2.recs = c.recs) ∧
    ((consolidate embed raw wOk mf mc c).1 = true →
        ∃ newRecs : List (MemRec E), newRecs ≠ [] ∧
          (consolidate embed raw wOk mf mc c).2.recs =
            c.recs.filter (fun r => !matchesWhere mf r.meta) ++ newRecs ∧
          ∀ r ∈ newRecs,
            metaGet r.meta "consolidated" = some (.bool true) ∧
            metaGet r.meta "utility_score" = some (.float 1)) := by
  obtain ⟨hfail, hsucc, _⟩ :=
    consolidate_outcome embed raw wOk mf mc c hfresh hnodup
  refine ⟨hfail, ?_⟩
  intro htrue
  obtain ⟨hne, extra, hlen, hrecs, hmeta⟩ := hsucc htrue
  refine ⟨extra, ?_, hrecs, ?_⟩
  · intro hnil
    rw [hnil] at hlen
    exact hne (List.eq_nil_of_length_eq_zero hlen.symm)
  · intro r hr
    rw [hmeta r hr]
    exact base_meta_flags mf

/-- Witness for C6 at a concrete store whose every write fails. -/
theorem consolidate_failsafe_witness :
    idsFresh (⟨[mkLesson 0 1], 1⟩ : Collection Unit) = true ∧
    ((⟨[mkLesson 0 1], 1⟩ : Collection Unit).recs.map (fun r => r.id)).Nodup ∧
    ((consolidate unitEmbed "- p" (fun _ => false) demoMeta 0
        ⟨[mkLesson 0 1], 1⟩).1 = false →
      (consolidate unitEmbed "- p" (fun _ => false) demoMeta 0
        ⟨[mkLesson 0 1], 1⟩).2.recs = [mkLesson 0 1]) :=
  ⟨by decide, by decide,
   (consolidate_failsafe unitEmbed "- p" (fun _ => false) demoMeta 0
      ⟨[mkLesson 0 1], 1⟩ (by decide) (by decide)).1⟩

theorem metaGet_of_mem_nodup (m : Metadata)
    (hnodup : (m.map (fun kv => kv.1)).Nodup) {kv : String × PyVal}
    (hm : kv ∈ m) : metaGet m kv.1 = some kv.2 := by
  induction m with
  | nil => exact absurd hm (List.not_mem_nil kv)
  | cons hd tl ih =>
      rw [List.map_cons, List.nodup_cons] at hnodup
      rcases List.mem_cons.mp hm with rfl | hm2
      · unfold metaGet
        simp [List.find?_cons]
      · have hne : (hd.1 == kv.1) = false := by
          simp only [beq_eq_false_iff_ne]
          intro he
          exact hnodup.1 (he ▸ List.mem_map.mpr ⟨kv, hm2, rfl⟩)
        have := ih hnodup.2 hm2
        unfold metaGet at this ⊢
        rw [List.find?_cons, hne]
        exact this

theorem matchesWhere_base_meta (mf : Metadata) (hsafe : metaSafe mf = true)
    (hkeys : ∀ kv ∈ mf, kv.1 ≠ "utility_score" ∧ kv.1 ≠ "consolidated")
    (hkeysN : (mf.map (fun kv => kv.1)).Nodup) :
    matchesWhere mf
      ((metaSet (metaSet (mf.filter (fun kv => kv.2.isPrimitive))
        "utility_score" (.float 1)) "consolidated" (.bool true)).filter
          (fun kv => kv.2.isPrimitive)) = true := by
  have hbm : metaSafe (metaSet (metaSet
      (mf.filter (fun kv => kv.2.isPrimitive)) "utility_score" (.float 1))
      "consolidated" (.bool true)) = true :=
    metaSafe_metaSet _ _ _
      (metaSafe_metaSet _ _ _ (metaSafe_filter mf) rfl) rfl
  rw [filter_of_metaSafe _ hbm]
  unfold matchesWhere
  rw [List.all_eq_true]
  intro kv hkv
  rw [metaGet_metaSet_ne _ _ _ _ (hkeys kv hkv).2,
    metaGet_metaSet_ne _ _ _ _ (hkeys kv hkv).1,
    filter_of_metaSafe mf hsafe,
    metaGet_of_mem_nodup mf hkeysN hkv]
  simp

theorem filterMap_decayStep_no_prune {E : Type} (mf : Metadata) (dr pf : ℚ) :
    ∀ l : List (MemRec E),
      (∀ r ∈ l, matchesWhere mf r.meta = true →
        pf ≤ getUtility r.meta - dr) →
      l.filterMap (decayStep mf dr pf) = l.map (fun r =>
        if matchesWhere mf r.meta then
          { r with meta := metaSet r.meta "utility_score"
                     (.float (getUtility r.meta - dr)) }
        else r) := by
  intro l
  induction l with
  | nil => intro _; rfl
  | cons r rest ih =>
      intro hl
      rw [List.filterMap_cons, List.map_cons]
      have hstep : decayStep mf dr pf r =
          some (if matchesWhere mf r.meta then
            { r with meta := metaSet r.meta "utility_score"
                       (.float (getUtility r.meta - dr)) }
          else r) := by
        by_cases hm : matchesWhere mf r.meta = true
        · have hge := hl r (List.mem_cons_self r rest) hm
          unfold decayStep
          rw [hm]
          simp [not_lt.mpr hge, hm]
        · rw [Bool.not_eq_true] at hm
          unfold decayStep
          rw [hm]
          simp [hm]
      rw [hstep]
      simp only
      rw [ih (fun r2 hr2 => hl r2 (List.mem_cons_of_mem r hr2))]

theorem decayed_collection_facts {E : Type} (mf : Metadata) (dr pf : ℚ)
    (c : Collection E)
    (hkeys : ∀ kv ∈ mf, kv.1 ≠ "utility_score" ∧ kv.1 ≠ "consolidated")
    (hfresh : idsFresh c = true)
    (hnodup : (c.recs.map (fun r => r.id)).Nodup)
    (hnp : ∀ r ∈ c.recs, matchesWhere mf r.meta = true →
      pf ≤ getUtility r.meta - dr) :
    idsFresh (decay_and_prune mf dr pf c).1 = true ∧
    ((decay_and_prune mf dr pf c).1.recs.map (fun r => r.id)).Nodup ∧
    (getWhere mf (decay_and_prune mf dr pf c).1).length =
      (getWhere mf c).length ∧
    (decay_and_prune mf dr pf c).1.recs.length = c.recs.length ∧
    (decay_and_prune mf dr pf c).1.recs.map
        (fun r => metaGet r.meta "consolidated") =
      c.recs.map (fun r => metaGet r.meta "consolidated") := by
  have hD : (decay_and_prune mf dr pf c).1.recs = c.recs.map (fun r =>
      if matchesWhere mf r.meta then
        { r with meta := metaSet r.meta "utility_score"
                   (.float (getUtility r.meta - dr)) }
      else r) :=
    filterMap_decayStep_no_prune mf dr pf c.recs hnp
  have hfid : ∀ r : MemRec E,
      (if matchesWhere mf r.meta then
        ({ r with meta := metaSet r.meta "utility_score"
                    (.float (getUtility r.meta - dr)) } : MemRec E)
      else r).id = r.id := by
    intro r
    split <;> rfl
  have hfmatch : ∀ r : MemRec E,
      matchesWhere mf (if matchesWhere mf r.meta then
        ({ r with meta := metaSet r.meta "utility_score"
                    (.float (getUtility r.meta - dr)) } : MemRec E)
      else r).meta = matchesWhere mf r.meta := by
    intro r
    by_cases hm : matchesWhere mf r.meta = true
    · simp only [hm, if_true]
      rw [matchesWhere_metaSet_ne mf r.meta _ _
        (fun kv hkv => (hkeys kv hkv).1)]
      exact hm
    · have hm' : matchesWhere mf r.meta = false := by
        rwa [Bool.not_eq_true] at hm
      simp [hm']
  have hmapid : (decay_and_prune mf dr pf c).1.recs.map (fun r => r.id) =
      c.recs.map (fun r => r.id) := by
    rw [hD, List.map_map]
    exact List.map_congr_left (fun r _ => hfid r)
  refine ⟨?_, ?_, ?_, ?_, ?_⟩
  · unfold idsFresh
    rw [List.all_eq_true]
    intro r hr
    rw [hD] at hr
    obtain ⟨r0, hr0, rfl⟩ := List.mem_map.mp hr
    simp only [hfid]
    have := idsFresh_mem hfresh hr0
    simpa using this
  · rw [hmapid]
    exact hnodup
  · unfold getWhere
    rw [hD, List.filter_map, List.length_map]
    congr 1
    apply List.filter_congr
    intro r _
    exact hfmatch r
  · rw [hD, List.length_map]
  · rw [hD, List.map_map]
    apply List.map_congr_left
    intro r _
    show metaGet (if matchesWhere mf r.meta then _ else r).meta "consolidated" =
      metaGet r.meta "consolidated"
    by_cases hm : matchesWhere mf r.meta = true
    · simp only [hm, if_true]
      exact metaGet_metaSet_ne _ _ _ _ (by decide)
    · have hm' : matchesWhere mf r.meta = false := by
        rwa [Bool.not_eq_true] at hm
      simp [hm']

/-- C7 amended: for a scope holding `consolidation_threshold + 1` records in
which no record is pruned by the decay phase (every `utility_score` stays at
or above `prune_floor + decay_rate`), `run_maintenance` with successful
summarization and writes leaves the scope with one record per parsed
principle — at most 3, each flagged `consolidated` with `utility_score`
`1.0` and metadata inheriting the scope keys; if the summarization response
yields no parseable principles, the collection's record count and
`consolidated` flags are exactly as before the run (only the utility scores
are decayed). -/
theorem run_maintenance_consolidation {E : Type} (embed : String → E)
    (raw : String) (mf : Metadata) (dr pf : ℚ) (cth : Nat) (c : Collection E)
    (hsafe : metaSafe mf = true)
    (hkeys : ∀ kv ∈ mf, kv.1 ≠ "utility_score" ∧ kv.1 ≠ "consolidated")
    (hkeysN : (mf.map (fun kv => kv.1)).Nodup)
    (hfresh : idsFresh c = true)
    (hnodup : (c.recs.map (fun r => r.id)).Nodup)
    (hcount : (getWhere mf c).length = cth + 1)
    (hnp : ∀ r ∈ c.recs, matchesWhere mf r.meta = true →
      pf ≤ getUtility r.meta - dr) :
    (parse_principles raw ≠ [] →
      (getWhere mf
          (run_maintenance embed raw (fun _ => true) mf dr pf cth c)).length =
        (parse_principles raw).length ∧
      (getWhere mf
          (run_maintenance embed raw (fun _ => true) mf dr pf cth c)).length ≤ 3 ∧
      ∀ r ∈ getWhere mf
          (run_maintenance embed raw (fun _ => true) mf dr pf cth c),
        metaGet r.meta "consolidated" = some (.bool true) ∧
        metaGet r.meta "utility_score" = some (.float 1)) ∧
    (parse_principles raw = [] →
      (run_maintenance embed raw (fun _ => true) mf dr pf cth c).recs.length =
        c.recs.length ∧
      (run_maintenance embed raw (fun _ => true) mf dr pf cth c).recs.map
          (fun r => metaGet r.meta "consolidated") =
        c.recs.map (fun r => metaGet r.meta "consolidated")) := by
  obtain ⟨hDfresh, hDnodup, hgwlen, hlen, hflags⟩ :=
    decayed_collection_facts mf dr pf c hkeys hfresh hnodup hnp
  have hresult : run_maintenance embed raw (fun _ => true) mf dr pf cth c =
      (consolidate embed raw (fun _ => true) mf cth
        (decay_and_prune mf dr pf c).1).2 := rfl
  have hlenD : (getWhere mf (decay_and_prune mf dr pf c).1).length = cth + 1 := by
    rw [hgwlen, hcount]
  have hgt : ¬(getWhere mf (decay_and_prune mf dr pf c).1).length ≤ cth := by
    omega
  obtain ⟨hfail, hsucc, htrig⟩ :=
    consolidate_outcome embed raw (fun _ => true) mf cth _ hDfresh hDnodup
  constructor
  · intro hP
    have htrue := htrig hgt hP (fun _ => rfl)
    obtain ⟨_, extra, hexlen, hrecs, hmeta⟩ := hsucc htrue
    have hscope : getWhere mf
        (run_maintenance embed raw (fun _ => true) mf dr pf cth c) = extra := by
      rw [hresult]
      unfold getWhere
      rw [hrecs, List.filter_append]
      have hA : (((decay_and_prune mf dr pf c).1.recs.filter
          (fun r => !matchesWhere mf r.meta)).filter
            (fun r => matchesWhere mf r.meta)) = [] := by
        apply List.filter_eq_nil_iff.mpr
        intro r hr
        have := (List.mem_filter.mp hr).2
        simp only [Bool.not_eq_true'] at this
        simp [this]
      have hB : extra.filter (fun r => matchesWhere mf r.meta) = extra := by
        apply List.filter_eq_self.mpr
        intro r hr
        rw [hmeta r hr]
        exact matchesWhere_base_meta mf hsafe hkeys hkeysN
      rw [hA, hB, List.nil_append]
    refine ⟨?_, ?_, ?_⟩
    · rw [hscope, hexlen]
    · rw [hscope, hexlen]
      unfold parse_principles
      exact List.length_take_le 3 _
    · intro r hr
      rw [hscope] at hr
      rw [hmeta r hr]
      exact base_meta_flags mf
  · intro hP
    have hfalse : (consolidate embed raw (fun _ => true) mf cth
        (decay_and_prune mf dr pf c).1).1 = false := by
      simp only [consolidate, hgt, hP, if_neg, if_pos, not_false_iff]
    have hrecsD := hfail hfalse
    rw [hresult]
    constructor
    · rw [hrecsD, hlen]
    · rw [hrecsD, hflags]

/-- A scope holding `consolidation_threshold + 1 = 11` records, one of which
(`utility_score = 0.3`) is pruned by the decay phase. -/
def cxStore : Collection Unit :=
  ⟨(List.range 10).map (fun i => mkLesson i 1) ++ [mkLesson 10 (3 / 10)], 11⟩

/-- `run_maintenance` on `cxStore` with the repository's default policy
constants and a summarization response carrying three parseable
principles. -/
def cxAfter : Collection Unit :=
  run_maintenance unitEmbed ("- a\n- b\n- c") (fun _ => true) demoMeta
    (1 / 20) (3 / 10) 10 cxStore

unseal Rat.sub Rat.add Rat.mul Rat.inv in
/-- C7 counterexample: a scope with `consolidation_threshold + 1` records on
which `run_maintenance` (with a successfully parsed summarization) leaves 10
records, none flagged `consolidated` — the decay phase prunes one record
first, the scope count drops to the threshold, and consolidation does not
trigger; the claim's "at most 3 records, each carrying the consolidated
flag" is false at this input. -/
theorem run_maintenance_overfull_counterexample :
    (getWhere demoMeta cxStore).length = 10 + 1 ∧
    (getWhere demoMeta cxAfter).length = 10 ∧
    ¬((getWhere demoMeta cxAfter).length ≤ 3 ∧
      ∀ r ∈ getWhere demoMeta cxAfter,
        metaGet r.meta "consolidated" = some (.bool true)) := by
  decide

/-- A scope with `consolidation_threshold + 1 = 11` records none of which is
pruned by decay. -/
def cxStoreGood : Collection Unit :=
  ⟨(List.range 11).map (fun i => mkLesson i 1), 11⟩

unseal Rat.sub Rat.add Rat.mul Rat.inv in
/-- Witness for C7's amended theorem at a concrete store, defaults, and a
three-principle summarization response. -/
theorem run_maintenance_consolidation_witness :
    metaSafe demoMeta = true ∧
    (getWhere demoMeta cxStoreGood).length = 10 + 1 ∧
    ((getWhere demoMeta (run_maintenance unitEmbed ("- a\n- b\n- c")
        (fun _ => true) demoMeta (1 / 20) (3 / 10) 10 cxStoreGood)).length =
      (parse_principles ("- a\n- b\n- c")).length ∧
     (getWhere demoMeta (run_maintenance unitEmbed ("- a\n- b\n- c")
        (fun _ => true) demoMeta (1 / 20) (3 / 10) 10 cxStoreGood)).length ≤ 3 ∧
     ∀ r ∈ getWhere demoMeta (run_maintenance unitEmbed ("- a\n- b\n- c")
        (fun _ => true) demoMeta (1 / 20) (3 / 10) 10 cxStoreGood),
       metaGet r.meta "consolidated" = some (.bool true) ∧
       metaGet r.meta "utility_score" = some (.float 1)) :=
  ⟨by decide, by decide,
   (run_maintenance_consolidation unitEmbed ("- a\n- b\n- c") demoMeta
      (1 / 20) (3 / 10) 10 cxStoreGood (by decide) (by decide) (by decide)
      (by decide) (by decide) (by decide) (by decide)).1 (by decide)⟩

end S3
